import Mathlib

/-!
Verification of the `wasm-cache` crate.

Shallow embedding of the core of the `wasm-cache` repository:

* `src/value.rs` — the dynamic `Value` container with a validity flag and
  the `downcast` operation;
* `src/key.rs` — the blanket `CacheKey` implementation giving type-erased
  equality (`any_eq`) and ordering (`any_ord`) over arbitrary concrete key
  types;
* `src/invalidate.rs` — the `Invalidatable` predicate (modelled as a
  boolean-valued parameter `invalidatedBy`);
* `src/yew.rs` — the `Entry` record, the `BTreeCache` association of keys
  to entries, and the `Cache` engine operations (`subscribe`, `failure`,
  `cache`, `unsubscribe`, `invalidate`), together with a small-step
  transition system modelling the interleaving of those operations with
  spawned fetch tasks.

Modelling conventions:

* Rust's `dyn Any` (a value of an arbitrary `'static` type together with
  its runtime `TypeId`) is modelled by `DynAny F`: a dependent pair of a
  `Nat` type identifier and a payload drawn from the type family `F`.
  `TypeId` comparison is `Nat` comparison; a successful `downcast_ref` is
  a `cast` along the equality of type identifiers.
* `std::time::Duration` values and the `f64` backoff arithmetic of
  `delay_update` are modelled as exact rationals (`ℚ`); `DELAY_INITIAL`
  (100 ms) is `1/10` seconds and `DELAY_MULTIPLIER` is `3/2`.
* A Yew `UseStateSetter<RcValue>` is identified by a `SubId` (a `Nat`);
  `setter.set(v)` is modelled as storing `v` into the handle.
-/

namespace WasmCache

/-! Dynamic value container (`src/value.rs`). -/

/-- The `Value<T>` container from `src/value.rs`: a validity flag plus an
optional payload. -/
structure Value (T : Type) where
  valid : Bool
  data : Option T
deriving DecidableEq

/-- Model of `Value::new(data)` — valid, with the given payload. -/
def Value.new {T : Type} (data : T) : Value T :=
  { valid := true, data := some data }

/-- Model of `Value::default()` — invalid, with no payload. -/
def Value.default (T : Type) : Value T :=
  { valid := false, data := none }

/-- Model of `Value::invalidate` — clear the validity flag, keep the
payload. -/
def Value.invalidate {T : Type} (v : Value T) : Value T :=
  { v with valid := false }

/-- Model of Rust's `dyn Any`: a runtime type identifier (`Nat`, standing
for `TypeId`) together with a payload of the corresponding concrete type
`F tyId`. -/
structure DynAny (F : Nat → Type) where
  tyId : Nat
  val : F tyId

/-- Model of `Value::<Rc<dyn Any>>::downcast::<T>` from `src/value.rs`:
re-type the payload to the concrete type with identifier `i`. A `None`
payload always re-types; a `Some` payload re-types exactly when its
runtime type matches, otherwise the whole downcast yields `none`. The
validity flag is carried over unchanged. -/
def Value.downcast {F : Nat → Type} (v : Value (DynAny F)) (i : Nat) :
    Option (Value (F i)) :=
  match v.data with
  | none => some { valid := v.valid, data := none }
  | some d =>
    if h : d.tyId = i then
      some { valid := v.valid, data := some (cast (congrArg F h) d.val) }
    else
      none

/-! Type-erased equality and ordering (`src/key.rs`).

The blanket `impl<M, T : ...> CacheKey<M> for T` gives every eligible
concrete type `T` the operations `any_eq` and `any_ord` against an
arbitrary `&dyn Any` operand. In the embedding both operands are
`DynAny F` values; `self.type_id()` is the `tyId` field and
`downcast_ref::<T>` succeeds exactly when the type identifiers agree. -/

/-- Model of `any_eq` from `src/key.rs`: downcast the other operand to
`self`'s concrete type; on success delegate to that type's equality, on
failure (differing concrete types) return `false`. -/
def any_eq {F : Nat → Type} [∀ i, DecidableEq (F i)] (a b : DynAny F) : Bool :=
  if h : b.tyId = a.tyId then
    decide (a.val = cast (congrArg F h) b.val)
  else
    false

/-- Model of `any_ord` from `src/key.rs`: compare the two runtime type
identifiers; if they differ, that comparison is the answer; if they
agree, downcast and delegate to the concrete type's own ordering (the
`None => unreachable!()` downcast arm cannot occur, since equal
identifiers mean equal types). -/
def any_ord {F : Nat → Type} [∀ i, LinearOrder (F i)] (a b : DynAny F) : Ordering :=
  if h : a.tyId = b.tyId then
    compare a.val (cast (congrArg F h.symm) b.val)
  else
    compare a.tyId b.tyId

/-! Cache entry and engine (`src/yew.rs`). -/

/-- A subscriber handle (a Yew `UseStateSetter<RcValue>`, identified up to
its equality). -/
abbrev SubId := Nat

/-- Model of `DELAY_INITIAL` (`Duration::from_millis(100)`), in seconds,
as an exact rational. -/
def DELAY_INITIAL : ℚ := 1 / 10

/-- Model of `DELAY_MULTIPLIER` (`1.5`), as an exact rational. -/
def DELAY_MULTIPLIER : ℚ := 3 / 2

/-- The delay transition inside `Entry::delay_update`: an existing delay
is multiplied by `DELAY_MULTIPLIER`, a missing one becomes
`DELAY_INITIAL`. (`f64`/`Duration` arithmetic is modelled exactly over
`ℚ`.) -/
def delayUpdate : Option ℚ → Option ℚ
  | some current => some (current * DELAY_MULTIPLIER)
  | none => some DELAY_INITIAL

/-- The retry delay stored after `n` consecutive `delay_update` calls
starting from the initial `None` delay — i.e. after `n` consecutive fetch
failures. -/
def delayAfter (n : Nat) : Option ℚ := delayUpdate^[n] none

/-- The `Entry` record from `src/yew.rs`: next-request delay, in-progress
flag, current cached value, and the list of subscriber handles. -/
structure Entry (F : Nat → Type) where
  delay : Option ℚ
  progress : Bool
  value : Value (DynAny F)
  subscriptions : List SubId

/-- Model of `Entry::default()` (the `#[derive(Default)]` instance). -/
def Entry.default (F : Nat → Type) : Entry F :=
  { delay := none, progress := false, value := Value.default _, subscriptions := [] }

/-- Model of `Entry::broadcast`: the messages sent to the subscribers —
each subscriber's setter receives the entry's current value, in list
order. -/
def Entry.broadcast {F : Nat → Type} (e : Entry F) : List (SubId × Value (DynAny F)) :=
  e.subscriptions.map fun s => (s, e.value)

/-- Model of `Entry::subscribe`: push the setter unless it is already
registered. -/
def Entry.subscribe {F : Nat → Type} (e : Entry F) (s : SubId) : Entry F :=
  if s ∈ e.subscriptions then e
  else { e with subscriptions := e.subscriptions ++ [s] }

/-- Model of `Entry::unsubscribe`: retain exactly the setters different
from `s`. -/
def Entry.unsubscribe {F : Nat → Type} (e : Entry F) (s : SubId) : Entry F :=
  { e with subscriptions := e.subscriptions.filter fun x => decide (x ≠ s) }

/-- Model of `Entry::delay_update`. -/
def Entry.delay_update {F : Nat → Type} (e : Entry F) : Entry F :=
  { e with delay := delayUpdate e.delay }

/-- Model of `Entry::delay_reset`. -/
def Entry.delay_reset {F : Nat → Type} (e : Entry F) : Entry F :=
  { e with delay := none }

/-- Model of `Entry::needs_fetch`: the value is invalid and no fetch is
marked in progress. -/
def Entry.needs_fetch {F : Nat → Type} (e : Entry F) : Bool :=
  !e.value.valid && !e.progress

/-- The `BTreeCache` mapping from (type-erased) keys to entries, modelled
as an association list with at most one binding per key along reachable
states. -/
abbrev BCache (F : Nat → Type) (K : Type) := List (K × Entry F)

section EngineDefs

variable {F : Nat → Type} {K M : Type} [DecidableEq K]

/-- Model of `BTreeCache::get`: the entry bound to `k`, if any (first
binding). -/
def getEntry : BCache F K → K → Option (Entry F)
  | [], _ => none
  | (k', e) :: rest, k => if k' = k then some e else getEntry rest k

/-- Model of `BTreeCache::mutate` with a closure that does not broadcast:
rewrite the binding of `k` (if present) by `f`, leaving every other
binding untouched. -/
def mutateEntry (k : K) (f : Entry F → Entry F) : BCache F K → BCache F K
  | [] => []
  | (k', e) :: rest =>
    if k' = k then (k', f e) :: rest else (k', e) :: mutateEntry k f rest

/-- Model of `BTreeCache::mutate` with a closure that ends in
`entry.broadcast()`: rewrite the binding of `k` by `f` and collect the
broadcast of the mutated entry (no messages when the key is absent). -/
def mutateBroadcast (k : K) (f : Entry F → Entry F) :
    BCache F K → BCache F K × List (SubId × Value (DynAny F))
  | [] => ([], [])
  | (k', e) :: rest =>
    if k' = k then ((k', f e) :: rest, (f e).broadcast)
    else
      let r := mutateBroadcast k f rest
      ((k', e) :: r.1, r.2)

/-- Model of `BTreeCache::insert` (with `BTreeMap::insert` semantics: an
existing binding keeps its original key and receives the new entry). -/
def insertEntry (k : K) (e : Entry F) : BCache F K → BCache F K
  | [] => [(k, e)]
  | (k', e') :: rest =>
    if k' = k then (k', e) :: rest else (k', e') :: insertEntry k e rest

/-- The entry mutation performed by `Cache::cache` on fetch success:
`delay_reset`, store the new payload as a fresh valid value, clear
`progress` (the closure then broadcasts). -/
def cacheEntryStep (v : DynAny F) (e : Entry F) : Entry F :=
  { e.delay_reset with value := Value.new v, progress := false }

/-- Model of `Cache::cache`: mutate the entry for `k` with
`cacheEntryStep` and broadcast. -/
def cacheOp (c : BCache F K) (k : K) (v : DynAny F) :
    BCache F K × List (SubId × Value (DynAny F)) :=
  mutateBroadcast k (cacheEntryStep v) c

/-- The entry mutation performed by `Cache::failure` on fetch failure:
`delay_update`, clear `progress`, leave the value untouched (the closure
then broadcasts). -/
def failureEntryStep (e : Entry F) : Entry F :=
  { e.delay_update with progress := false }

/-- Model of `Cache::failure`: mutate the entry for `k` with
`failureEntryStep` and broadcast. -/
def failureOp (c : BCache F K) (k : K) :
    BCache F K × List (SubId × Value (DynAny F)) :=
  mutateBroadcast k failureEntryStep c

/-- Model of `Cache::unsubscribe`: remove the setter from the entry's
subscriber list; the entry itself stays in the map. -/
def unsubscribeOp (c : BCache F K) (k : K) (s : SubId) : BCache F K :=
  mutateEntry k (fun e => e.unsubscribe s) c

/-- Model of `Cache::invalidate(mutation)`: walk every binding; where the
key's `invalidated_by` predicate holds, invalidate the value and
broadcast; other bindings are untouched and nothing is ever removed. -/
def invalidateOp (invalidatedBy : K → M → Bool) (m : M) :
    BCache F K → BCache F K × List (SubId × Value (DynAny F))
  | [] => ([], [])
  | (k, e) :: rest =>
    let r := invalidateOp invalidatedBy m rest
    if invalidatedBy k m then
      let e2 := { e with value := e.value.invalidate }
      ((k, e2) :: r.1, e2.broadcast ++ r.2)
    else
      ((k, e) :: r.1, r.2)

/-- The outcome of one `Cache::subscribe` call: the new cache, the setter
messages emitted synchronously, and — when a fetch task was spawned — the
delay that task was given. -/
structure SubscribeRes (F : Nat → Type) (K : Type) where
  cache : BCache F K
  msgs : List (SubId × Value (DynAny F))
  spawn : Option (Option ℚ)

/-- Model of `Cache::subscribe` for a request of key `k` whose associated
`R::Value` type identifier is `valTy k`, from a handle `s` currently
holding `cur`. The result `none` models a panic of one of the two
`downcast::<R::Value>().unwrap()` calls. On an existing entry: register
`s`, compare the downcast entry value with the downcast current value and
notify `s` only when they differ, then spawn a fetch with the entry's
stored delay exactly when the (subscribed) entry `needs_fetch` — note
that this branch does not set `progress`. On a missing key: insert a
fresh entry with `progress := true` and `s` as only subscriber and spawn
an immediate fetch (no delay). -/
def subscribeOp [∀ i, DecidableEq (F i)] (valTy : K → Nat) (c : BCache F K)
    (k : K) (s : SubId) (cur : Value (DynAny F)) : Option (SubscribeRes F K) :=
  match getEntry c k with
  | some e =>
    let e1 := e.subscribe s
    match e1.value.downcast (valTy k), cur.downcast (valTy k) with
    | some value, some current =>
      some { cache := mutateEntry k (fun e0 => e0.subscribe s) c,
             msgs := if value ≠ current then [(s, e1.value)] else [],
             spawn := if e1.needs_fetch then some e1.delay else none }
    | _, _ => none
  | none =>
    some { cache :=
             insertEntry k
               { Entry.default F with progress := true, subscriptions := [s] } c,
           msgs := [],
           spawn := some none }

/-- Application of a list of setter messages in order: each message
`(s, v)` stores `v` into handle `s`. -/
def applyMsgs (h : SubId → Value (DynAny F)) :
    List (SubId × Value (DynAny F)) → SubId → Value (DynAny F)
  | [] => h
  | (s, v) :: rest => applyMsgs (fun s' => if s' = s then v else h s') rest

/-- Global system state: the shared `BTreeCache`, a ghost count of
spawned but not yet completed fetch tasks per key, and the value currently
stored in each subscriber handle. -/
structure Sys (F : Nat → Type) (K : Type) where
  cache : BCache F K
  inflight : K → Nat
  handles : SubId → Value (DynAny F)

/-- The initial system: empty cache, no fetch in flight, every handle at
`RcValue::default()`. -/
def Sys.init (F : Nat → Type) (K : Type) : Sys F K :=
  { cache := [], inflight := fun _ => 0, handles := fun _ => Value.default _ }

variable [∀ i, DecidableEq (F i)]
variable (valTy : K → Nat) (subTy : SubId → Nat) (invalidatedBy : K → M → Bool)

/-- One interleaved step of the engine. `subTy s` is the `R::Value` type
identifier of the (fixed) request type handle `s` is used with, and a
subscribe step requires `valTy k = subTy s` (a `use_cached` call site is
monomorphic in its request type `R`). A spawned fetch stays in flight
(counted in `inflight`) until its `success` or `failure` step runs. -/
inductive Step : Sys F K → Sys F K → Prop where
  | subscribe (σ : Sys F K) (k : K) (s : SubId) (r : SubscribeRes F K) :
      valTy k = subTy s →
      subscribeOp valTy σ.cache k s (σ.handles s) = some r →
      Step σ
        { cache := r.cache,
          inflight := fun k' =>
            if k' = k ∧ r.spawn.isSome then σ.inflight k' + 1 else σ.inflight k',
          handles := applyMsgs σ.handles r.msgs }
  | success (σ : Sys F K) (k : K) (x : F (valTy k)) :
      σ.inflight k ≠ 0 →
      Step σ
        { cache := (cacheOp σ.cache k ⟨valTy k, x⟩).1,
          inflight := fun k' => if k' = k then σ.inflight k' - 1 else σ.inflight k',
          handles := applyMsgs σ.handles (cacheOp σ.cache k ⟨valTy k, x⟩).2 }
  | failure (σ : Sys F K) (k : K) :
      σ.inflight k ≠ 0 →
      Step σ
        { cache := (failureOp σ.cache k).1,
          inflight := fun k' => if k' = k then σ.inflight k' - 1 else σ.inflight k',
          handles := applyMsgs σ.handles (failureOp σ.cache k).2 }
  | invalidate (σ : Sys F K) (m : M) :
      Step σ
        { cache := (invalidateOp invalidatedBy m σ.cache).1,
          inflight := σ.inflight,
          handles := applyMsgs σ.handles (invalidateOp invalidatedBy m σ.cache).2 }
  | unsub (σ : Sys F K) (k : K) (s : SubId) :
      Step σ
        { cache := unsubscribeOp σ.cache k s,
          inflight := σ.inflight,
          handles := σ.handles }

/-- States reachable from the empty cache by interleaving engine steps. -/
inductive Reachable : Sys F K → Prop where
  | init : Reachable (Sys.init F K)
  | step {σ σ' : Sys F K} :
      Reachable σ → Step valTy subTy invalidatedBy σ σ' → Reachable σ'

end EngineDefs

/-- The statement that every payload stored in `v` has runtime type `t`. -/
def ValueTyped {F : Nat → Type} (v : Value (DynAny F)) (t : Nat) : Prop :=
  ∀ d, v.data = some d → d.tyId = t

/-- The typing invariant of the engine: every entry's stored payload has
the value type of its key, every subscriber of an entry uses that key's
value type, and every handle stores a payload of its own value type. -/
def SysInv {F : Nat → Type} {K : Type} (valTy : K → Nat) (subTy : SubId → Nat)
    (σ : Sys F K) : Prop :=
  (∀ p ∈ σ.cache, ValueTyped p.2.value (valTy p.1)
    ∧ ∀ s ∈ p.2.subscriptions, subTy s = valTy p.1)
  ∧ ∀ s, ValueTyped (σ.handles s) (subTy s)

/-- A concrete type family for witnesses: every type identifier denotes
`Nat`. -/
abbrev F0 : Nat → Type := fun _ => Nat

/-- A concrete value-type assignment for witnesses: every key's value
type is `0`. -/
def valTy0 : Nat → Nat := fun _ => 0

/-- A concrete handle-type assignment for witnesses: every handle's value
type is `0`. -/
def subTy0 : SubId → Nat := fun _ => 0

/-- A concrete invalidation predicate for witnesses: the default
`Invalidatable` implementation, invalidated by everything. -/
def inv0 : Nat → Unit → Bool := fun _ _ => true

/-! Theorems about the type-erased key order (`src/key.rs`). -/

theorem compare_swap_eq {α : Type} [LinearOrder α] (x y : α) :
    (compare x y).swap = compare y x := by
  rcases lt_trichotomy x y with h | h | h
  · rw [compare_lt_iff_lt.2 h, compare_gt_iff_gt.2 h]
    rfl
  · subst h
    rw [compare_eq_iff_eq.2 rfl]
    rfl
  · rw [compare_gt_iff_gt.2 h, compare_lt_iff_lt.2 h]
    rfl

theorem any_ord_same {F : Nat → Type} [∀ i, LinearOrder (F i)] (i : Nat) (x y : F i) :
    any_ord ⟨i, x⟩ ⟨i, y⟩ = compare x y := by
  unfold any_ord
  rw [dif_pos rfl]
  rfl

theorem any_eq_same {F : Nat → Type} [∀ i, DecidableEq (F i)] (i : Nat) (x y : F i) :
    any_eq ⟨i, x⟩ ⟨i, y⟩ = decide (x = y) := by
  unfold any_eq
  rw [dif_pos rfl]
  rfl

theorem any_eq_ne {F : Nat → Type} [∀ i, DecidableEq (F i)] {a b : DynAny F}
    (h : b.tyId ≠ a.tyId) : any_eq a b = false := by
  unfold any_eq
  rw [dif_neg h]

theorem any_ord_ne {F : Nat → Type} [∀ i, LinearOrder (F i)] {a b : DynAny F}
    (h : a.tyId ≠ b.tyId) : any_ord a b = compare a.tyId b.tyId := by
  unfold any_ord
  rw [dif_neg h]

theorem any_ord_lt_trans {F : Nat → Type} [∀ i, LinearOrder (F i)] {a b c : DynAny F}
    (h1 : any_ord a b = .lt) (h2 : any_ord b c = .lt) : any_ord a c = .lt := by
  obtain ⟨i, x⟩ := a
  obtain ⟨j, y⟩ := b
  obtain ⟨l, z⟩ := c
  by_cases hij : i = j
  · subst hij
    by_cases hil : i = l
    · subst hil
      rw [any_ord_same] at h1 h2 ⊢
      exact compare_lt_iff_lt.2
        (lt_trans (compare_lt_iff_lt.1 h1) (compare_lt_iff_lt.1 h2))
    · rw [any_ord_ne hil] at h2 ⊢
      exact h2
  · by_cases hjl : j = l
    · subst hjl
      rw [any_ord_ne hij] at h1 ⊢
      exact h1
    · rw [any_ord_ne hij] at h1
      rw [any_ord_ne hjl] at h2
      have hik : (i : Nat) < l :=
        lt_trans (compare_lt_iff_lt.1 h1) (compare_lt_iff_lt.1 h2)
      rw [any_ord_ne (F := F) (a := ⟨i, x⟩) (b := ⟨l, z⟩) (ne_of_lt hik)]
      exact compare_lt_iff_lt.2 hik

theorem any_ord_swap {F : Nat → Type} [∀ i, LinearOrder (F i)] (a b : DynAny F) :
    (any_ord a b).swap = any_ord b a := by
  obtain ⟨i, x⟩ := a
  obtain ⟨j, y⟩ := b
  by_cases hij : i = j
  · subst hij
    rw [any_ord_same, any_ord_same, compare_swap_eq]
  · rw [any_ord_ne hij, any_ord_ne (Ne.symm hij)]
    exact compare_swap_eq i j

theorem any_ord_eq_iff {F : Nat → Type} [∀ i, LinearOrder (F i)] [∀ i, DecidableEq (F i)]
    (a b : DynAny F) : any_ord a b = .eq ↔ any_eq a b = true := by
  obtain ⟨i, x⟩ := a
  obtain ⟨j, y⟩ := b
  by_cases hij : i = j
  · subst hij
    rw [any_ord_same, any_eq_same]
    simp [compare_eq_iff_eq]
  · rw [any_ord_ne hij, any_eq_ne (a := (⟨i, x⟩ : DynAny F)) (Ne.symm hij)]
    simp
    exact fun hc => hij (compare_eq_iff_eq.1 hc)

/-- C2: for all type-erased keys `a`, `b`, `c` wrapping any eligible
concrete types, `any_ord` is a strict total order — antisymmetric (its
swap is the reversed comparison), transitive, and consistent with
`any_eq` — and when the wrapped concrete types differ the result is the
ordering of the per-type discriminator, while equal concrete types
delegate to the wrapped type's own ordering. -/
theorem any_ord_strict_total_order {F : Nat → Type}
    [∀ i, LinearOrder (F i)] [∀ i, DecidableEq (F i)] (a b c : DynAny F) :
    ((any_ord a b).swap = any_ord b a)
    ∧ (any_ord a b = .lt → any_ord b c = .lt → any_ord a c = .lt)
    ∧ (any_ord a b = .eq ↔ any_eq a b = true)
    ∧ (a.tyId ≠ b.tyId → any_ord a b = compare a.tyId b.tyId)
    ∧ (∀ (i : Nat) (x y : F i), any_ord ⟨i, x⟩ ⟨i, y⟩ = compare x y) :=
  ⟨any_ord_swap a b, any_ord_lt_trans, any_ord_eq_iff a b,
   fun h => any_ord_ne h, any_ord_same⟩

/-- Witness for C2 at concrete keys of the `F0` family. -/
theorem any_ord_strict_total_order_witness :
    any_ord (F := F0) ⟨0, 1⟩ ⟨1, 0⟩ = .lt ∧ any_eq (F := F0) ⟨0, 1⟩ ⟨0, 1⟩ = true :=
  ⟨(any_ord_strict_total_order (F := F0) ⟨0, 1⟩ ⟨0, 2⟩ ⟨1, 0⟩).2.1 (by decide) (by decide),
   (any_ord_strict_total_order (F := F0) ⟨0, 1⟩ ⟨0, 1⟩ ⟨0, 1⟩).2.2.1.1 (by decide)⟩

/-- C8: keys wrapping differing concrete types are never equal under
`any_eq`, regardless of the payloads; keys of the same concrete type
delegate to that type's own equality. -/
theorem any_eq_across_types {F : Nat → Type} [∀ i, DecidableEq (F i)] (a b : DynAny F) :
    (a.tyId ≠ b.tyId → any_eq a b = false)
    ∧ (∀ (i : Nat) (x y : F i), any_eq ⟨i, x⟩ ⟨i, y⟩ = decide (x = y)) :=
  ⟨fun h => any_eq_ne (Ne.symm h), any_eq_same⟩

/-- Witness for C8: equal payloads under differing type identifiers are
unequal. -/
theorem any_eq_across_types_witness : any_eq (F := F0) ⟨0, 7⟩ ⟨1, 7⟩ = false :=
  (any_eq_across_types (F := F0) ⟨0, 7⟩ ⟨1, 7⟩).1 (by decide)

/-! Theorems about `Value::downcast` (`src/value.rs`). -/

theorem downcast_data_none {F : Nat → Type} (b : Bool) (i : Nat) :
    (Value.mk b none : Value (DynAny F)).downcast i = some (Value.mk b none) := rfl

theorem downcast_data_some_pos {F : Nat → Type} (b : Bool) {d : DynAny F} {i : Nat}
    (h : d.tyId = i) :
    (Value.mk b (some d)).downcast i =
      some (Value.mk b (some (cast (congrArg F h) d.val))) := by
  simp only [Value.downcast]
  rw [dif_pos h]

theorem downcast_data_some_neg {F : Nat → Type} (b : Bool) {d : DynAny F} {i : Nat}
    (h : ¬ d.tyId = i) : (Value.mk b (some d)).downcast i = none := by
  simp only [Value.downcast]
  rw [dif_neg h]

/-- C7: `downcast` succeeds exactly when the erased payload's runtime
type matches the target type; on success the result carries the same
validity flag and the same payload, re-typed; a payload-free value always
re-types to the payload-free value with the same validity flag. -/
theorem downcast_typed_failure {F : Nat → Type} (v : Value (DynAny F)) (i : Nat) :
    (∀ d, v.data = some d → ((v.downcast i).isSome = true ↔ d.tyId = i))
    ∧ (∀ w, v.downcast i = some w → w.valid = v.valid)
    ∧ (∀ d w, v.data = some d → v.downcast i = some w →
        ∃ h : d.tyId = i, w.data = some (cast (congrArg F h) d.val))
    ∧ (v.data = none → v.downcast i = some (Value.mk v.valid none)) := by
  obtain ⟨vb, vd⟩ := v
  cases vd with
  | none =>
    refine ⟨?_, ?_, ?_, ?_⟩
    · intro d hd
      cases hd
    · intro w hw
      rw [downcast_data_none] at hw
      cases hw
      rfl
    · intro d w hd
      cases hd
    · intro _
      exact downcast_data_none vb i
  | some d =>
    by_cases h : d.tyId = i
    · refine ⟨?_, ?_, ?_, ?_⟩
      · intro d' hd'
        injection hd' with h2
        subst h2
        rw [downcast_data_some_pos vb h]
        simp [h]
      · intro w hw
        rw [downcast_data_some_pos vb h] at hw
        cases hw
        rfl
      · intro d' w hd' hw
        injection hd' with h2
        subst h2
        rw [downcast_data_some_pos vb h] at hw
        cases hw
        exact ⟨h, rfl⟩
      · intro hn
        cases hn
    · refine ⟨?_, ?_, ?_, ?_⟩
      · intro d' hd'
        injection hd' with h2
        subst h2
        rw [downcast_data_some_neg vb h]
        simp [h]
      · intro w hw
        rw [downcast_data_some_neg vb h] at hw
        cases hw
      · intro d' w hd' hw
        injection hd' with h2
        subst h2
        rw [downcast_data_some_neg vb h] at hw
        cases hw
      · intro hn
        cases hn

/-- Witness for C7: a matching downcast at a concrete payload succeeds. -/
theorem downcast_typed_failure_witness :
    ((Value.new (⟨0, 5⟩ : DynAny F0)).downcast 0).isSome = true :=
  ((downcast_typed_failure (Value.new ⟨0, 5⟩) 0).1 ⟨0, 5⟩ rfl).2 rfl

/-! Theorems about the engine operations on the entry map
(`src/yew.rs`). -/

section EngineThms

variable {F : Nat → Type} {K M : Type} [DecidableEq K]

theorem mutateBroadcast_fst (k : K) (f : Entry F → Entry F) (c : BCache F K) :
    (mutateBroadcast k f c).1 = mutateEntry k f c := by
  induction c with
  | nil => rfl
  | cons p rest ih =>
    obtain ⟨k', e⟩ := p
    by_cases h : k' = k
    · simp [mutateBroadcast, mutateEntry, h]
    · simp [mutateBroadcast, mutateEntry, h, ih]

theorem mutateBroadcast_snd_some (k : K) (f : Entry F → Entry F) {c : BCache F K}
    {e : Entry F} (h : getEntry c k = some e) :
    (mutateBroadcast k f c).2 = (f e).broadcast := by
  induction c with
  | nil => cases h
  | cons p rest ih =>
    obtain ⟨k', e'⟩ := p
    by_cases hk : k' = k
    · rw [getEntry, if_pos hk] at h
      cases h
      simp [mutateBroadcast, hk]
    · rw [getEntry, if_neg hk] at h
      simp [mutateBroadcast, hk, ih h]

theorem mutateBroadcast_snd_none (k : K) (f : Entry F → Entry F) {c : BCache F K}
    (h : getEntry c k = none) : (mutateBroadcast k f c).2 = [] := by
  induction c with
  | nil => rfl
  | cons p rest ih =>
    obtain ⟨k', e'⟩ := p
    by_cases hk : k' = k
    · rw [getEntry, if_pos hk] at h
      cases h
    · rw [getEntry, if_neg hk] at h
      simp [mutateBroadcast, hk, ih h]

theorem getEntry_mutateEntry_self (k : K) (f : Entry F → Entry F) {c : BCache F K}
    {e : Entry F} (h : getEntry c k = some e) :
    getEntry (mutateEntry k f c) k = some (f e) := by
  induction c with
  | nil => cases h
  | cons p rest ih =>
    obtain ⟨k', e'⟩ := p
    by_cases hk : k' = k
    · rw [getEntry, if_pos hk] at h
      cases h
      simp [mutateEntry, getEntry, hk]
    · rw [getEntry, if_neg hk] at h
      simp [mutateEntry, getEntry, hk, ih h]

theorem mutateEntry_keys (k : K) (f : Entry F → Entry F) (c : BCache F K) :
    (mutateEntry k f c).map Prod.fst = c.map Prod.fst := by
  induction c with
  | nil => rfl
  | cons p rest ih =>
    obtain ⟨k', e⟩ := p
    by_cases h : k' = k
    · simp [mutateEntry, h]
    · simp [mutateEntry, h, ih]

theorem getEntry_mem {c : BCache F K} {k : K} {e : Entry F}
    (h : getEntry c k = some e) : (k, e) ∈ c := by
  induction c with
  | nil => cases h
  | cons p rest ih =>
    obtain ⟨k', e'⟩ := p
    by_cases hk : k' = k
    · subst hk
      rw [getEntry, if_pos rfl] at h
      cases h
      exact List.mem_cons_self _ _
    · rw [getEntry, if_neg hk] at h
      exact List.mem_cons_of_mem _ (ih h)

theorem mem_mutateEntry {c : BCache F K} {k : K} {f : Entry F → Entry F}
    {p : K × Entry F} (h : p ∈ mutateEntry k f c) :
    p ∈ c ∨ ∃ e, (k, e) ∈ c ∧ p = (k, f e) := by
  induction c with
  | nil => cases h
  | cons q rest ih =>
    obtain ⟨k', e'⟩ := q
    by_cases hk : k' = k
    · subst hk
      rw [mutateEntry, if_pos rfl] at h
      rcases List.mem_cons.1 h with h' | h'
      · exact Or.inr ⟨e', List.mem_cons_self _ _, h'⟩
      · exact Or.inl (List.mem_cons_of_mem _ h')
    · rw [mutateEntry, if_neg hk] at h
      rcases List.mem_cons.1 h with h' | h'
      · exact Or.inl (h' ▸ List.mem_cons_self _ _)
      · rcases ih h' with h2 | ⟨e, he, hp⟩
        · exact Or.inl (List.mem_cons_of_mem _ h2)
        · exact Or.inr ⟨e, List.mem_cons_of_mem _ he, hp⟩

theorem mem_insertEntry {c : BCache F K} {k : K} {e : Entry F}
    {p : K × Entry F} (h : p ∈ insertEntry k e c) :
    p ∈ c ∨ p = (k, e) := by
  induction c with
  | nil =>
    rw [insertEntry] at h
    rcases List.mem_cons.1 h with h' | h'
    · exact Or.inr h'
    · cases h'
  | cons q rest ih =>
    obtain ⟨k', e'⟩ := q
    by_cases hk : k' = k
    · subst hk
      rw [insertEntry, if_pos rfl] at h
      rcases List.mem_cons.1 h with h' | h'
      · exact Or.inr h'
      · exact Or.inl (List.mem_cons_of_mem _ h')
    · rw [insertEntry, if_neg hk] at h
      rcases List.mem_cons.1 h with h' | h'
      · exact Or.inl (h' ▸ List.mem_cons_self _ _)
      · rcases ih h' with h2 | h2
        · exact Or.inl (List.mem_cons_of_mem _ h2)
        · exact Or.inr h2

/-- C3: a successful fetch completion (`Cache::cache`) on any existing
entry — whatever its validity, delay, progress flag or previous payload,
so in particular also when the entry was invalidated while the fetch was
in flight — leaves the entry with no retry delay, `progress` cleared and
the new payload as a valid value, and broadcasts the new value to every
registered subscriber. -/
theorem cache_success_spec (c : BCache F K) (k : K) (e : Entry F) (v : DynAny F)
    (h : getEntry c k = some e) :
    getEntry (cacheOp c k v).1 k =
      some (Entry.mk none false (Value.new v) e.subscriptions)
    ∧ (Value.new v).valid = true
    ∧ (Value.new v).data = some v
    ∧ (cacheOp c k v).2 = e.subscriptions.map fun s => (s, Value.new v) := by
  obtain ⟨d0, p0, v0, s0⟩ := e
  refine ⟨?_, rfl, rfl, ?_⟩
  · rw [cacheOp, mutateBroadcast_fst]
    exact getEntry_mutateEntry_self k _ h
  · rw [cacheOp]
    exact mutateBroadcast_snd_some k _ h

/-- Witness for C3: caching over an invalidated in-progress entry stores
and broadcasts the fresh value. -/
theorem cache_success_spec_witness :
    (cacheOp (F := F0) (K := Nat)
        [(0, Entry.mk (some 1) true (Value.default _) [3])] 0 ⟨0, 42⟩).2
      = [(3, Value.new ⟨0, 42⟩)] :=
  (cache_success_spec (F := F0) (K := Nat)
    [(0, Entry.mk (some 1) true (Value.default _) [3])] 0
    (Entry.mk (some 1) true (Value.default _) [3]) ⟨0, 42⟩ rfl).2.2.2

/-- C6: a fetch failure (`Cache::failure`) on any existing entry leaves
the entry's value unchanged, clears `progress`, bumps the retry delay,
and broadcasts the previous value to the subscribers; every broadcast
message carries that previous value, never an error. -/
theorem failure_spec (c : BCache F K) (k : K) (e : Entry F)
    (h : getEntry c k = some e) :
    getEntry (failureOp c k).1 k =
      some (Entry.mk (delayUpdate e.delay) false e.value e.subscriptions)
    ∧ (failureOp c k).2 = e.subscriptions.map (fun s => (s, e.value))
    ∧ (∀ msg ∈ (failureOp c k).2, msg.2 = e.value) := by
  obtain ⟨d0, p0, v0, s0⟩ := e
  refine ⟨?_, ?_, ?_⟩
  · rw [failureOp, mutateBroadcast_fst]
    exact getEntry_mutateEntry_self k _ h
  · rw [failureOp]
    exact mutateBroadcast_snd_some k _ h
  · intro msg hmsg
    rw [failureOp, mutateBroadcast_snd_some k _ h] at hmsg
    simp [Entry.broadcast] at hmsg
    obtain ⟨s, _, hs⟩ := hmsg
    rw [← hs]
    rfl

/-- Witness for C6: a failure broadcasts the previously cached value. -/
theorem failure_spec_witness :
    (failureOp (F := F0) (K := Nat)
        [(0, Entry.mk none false (Value.new ⟨0, 9⟩) [4])] 0).2
      = [(4, Value.new ⟨0, 9⟩)] :=
  (failure_spec (F := F0) (K := Nat)
    [(0, Entry.mk none false (Value.new ⟨0, 9⟩) [4])] 0
    (Entry.mk none false (Value.new ⟨0, 9⟩) [4]) rfl).2.1

/-- C9: re-subscribing an already-registered handle is a no-op;
unsubscribing removes exactly that handle, is idempotent, and never
removes the entry from the map (the key set is unchanged, even when the
subscriber set becomes empty). -/
theorem subscription_ops_spec (e : Entry F) (s : SubId) (c : BCache F K) (k : K) :
    (s ∈ e.subscriptions → e.subscribe s = e)
    ∧ s ∉ (e.unsubscribe s).subscriptions
    ∧ (∀ x, x ≠ s → ((x ∈ (e.unsubscribe s).subscriptions) ↔ x ∈ e.subscriptions))
    ∧ (e.unsubscribe s).unsubscribe s = e.unsubscribe s
    ∧ (unsubscribeOp c k s).map Prod.fst = c.map Prod.fst := by
  refine ⟨?_, ?_, ?_, ?_, mutateEntry_keys k _ c⟩
  · intro hs
    simp [Entry.subscribe, hs]
  · simp [Entry.unsubscribe, List.mem_filter]
  · intro x hx
    simp [Entry.unsubscribe, List.mem_filter, hx]
  · obtain ⟨d0, p0, v0, s0⟩ := e
    simp [Entry.unsubscribe, List.filter_filter]

/-- Witness for C9: re-subscribing the only registered handle changes
nothing. -/
theorem subscription_ops_spec_witness :
    (Entry.mk none false (Value.default _) [5] : Entry F0).subscribe 5
      = Entry.mk none false (Value.default _) [5] :=
  (subscription_ops_spec (Entry.mk none false (Value.default _) [5]) 5
    ([] : BCache F0 Nat) 0).1 (by decide)

end EngineThms

/-! Theorems about `Cache::invalidate` (`src/yew.rs`). -/

section InvalidateThms

variable {F : Nat → Type} {K M : Type}

theorem invalidateOp_fst (invB : K → M → Bool) (m : M) (c : BCache F K) :
    (invalidateOp invB m c).1 =
      c.map fun p =>
        if invB p.1 m then (p.1, { p.2 with value := p.2.value.invalidate }) else p := by
  induction c with
  | nil => rfl
  | cons p rest ih =>
    obtain ⟨k, e⟩ := p
    by_cases h : invB k m
    · simp [invalidateOp, h, ih]
    · simp [invalidateOp, h, ih]

theorem invalidateOp_snd (invB : K → M → Bool) (m : M) (c : BCache F K) :
    (invalidateOp invB m c).2 =
      c.flatMap fun p =>
        if invB p.1 m
        then ({ p.2 with value := p.2.value.invalidate } : Entry F).broadcast
        else [] := by
  induction c with
  | nil => rfl
  | cons p rest ih =>
    obtain ⟨k, e⟩ := p
    by_cases h : invB k m
    · simp [invalidateOp, h, ih]
    · simp [invalidateOp, h, ih]

theorem invalidateOp_keys (invB : K → M → Bool) (m : M) (c : BCache F K) :
    (invalidateOp invB m c).1.map Prod.fst = c.map Prod.fst := by
  induction c with
  | nil => rfl
  | cons p rest ih =>
    obtain ⟨k, e⟩ := p
    by_cases h : invB k m
    · simp [invalidateOp, h, ih]
    · simp [invalidateOp, h, ih]

/-- C4: `invalidate(m)` rewrites exactly the entries whose key satisfies
`invalidated_by m` — only their validity flag changes (delay, progress,
subscriber list and stored payload are untouched) and their new value is
broadcast to their subscribers — while every other entry is completely
unchanged and no entry is ever removed from the map. -/
theorem invalidate_frame (invB : K → M → Bool) (m : M) (c : BCache F K) :
    ((invalidateOp invB m c).1 =
      c.map fun p =>
        if invB p.1 m then (p.1, { p.2 with value := p.2.value.invalidate }) else p)
    ∧ ((invalidateOp invB m c).1.map Prod.fst = c.map Prod.fst)
    ∧ ((invalidateOp invB m c).2 =
      c.flatMap fun p =>
        if invB p.1 m
        then ({ p.2 with value := p.2.value.invalidate } : Entry F).broadcast
        else [])
    ∧ (∀ v : Value (DynAny F), v.invalidate.data = v.data ∧ v.invalidate.valid = false) :=
  ⟨invalidateOp_fst invB m c, invalidateOp_keys invB m c, invalidateOp_snd invB m c,
   fun _ => ⟨rfl, rfl⟩⟩

end InvalidateThms

/-! Theorem about the exponential backoff (`src/yew.rs`). -/

/-- C5: under exact arithmetic the retry delay after `n + 1` consecutive
failures is `DELAY_INITIAL * DELAY_MULTIPLIER ^ n` — so the sequence
starts at the initial delay and is strictly increasing — and each failure
updates the stored delay through `delayUpdate`. -/
theorem backoff_monotone (n : Nat) :
    delayAfter (n + 1) = some (DELAY_INITIAL * DELAY_MULTIPLIER ^ n)
    ∧ DELAY_INITIAL * DELAY_MULTIPLIER ^ n < DELAY_INITIAL * DELAY_MULTIPLIER ^ (n + 1)
    ∧ (∀ (G : Nat → Type) (e : Entry G), (failureEntryStep e).delay = delayUpdate e.delay) := by
  refine ⟨?_, ?_, fun G e => rfl⟩
  · induction n with
    | zero =>
      rw [pow_zero, mul_one]
      rfl
    | succ n ih =>
      rw [delayAfter, Function.iterate_succ_apply']
      rw [show delayUpdate^[n + 1] none = delayAfter (n + 1) from rfl, ih]
      show some (DELAY_INITIAL * DELAY_MULTIPLIER ^ n * DELAY_MULTIPLIER) = _
      rw [pow_succ, mul_assoc]
  · have hp : (0 : ℚ) < DELAY_INITIAL * DELAY_MULTIPLIER ^ n := by
      apply mul_pos
      · norm_num [DELAY_INITIAL]
      · exact pow_pos (by norm_num [DELAY_MULTIPLIER]) n
    calc DELAY_INITIAL * DELAY_MULTIPLIER ^ n
        = DELAY_INITIAL * DELAY_MULTIPLIER ^ n * 1 := (mul_one _).symm
      _ < DELAY_INITIAL * DELAY_MULTIPLIER ^ n * DELAY_MULTIPLIER :=
          mul_lt_mul_of_pos_left (by norm_num [DELAY_MULTIPLIER]) hp
      _ = DELAY_INITIAL * DELAY_MULTIPLIER ^ (n + 1) := by rw [pow_succ, mul_assoc]

/-! Theorems about the typing invariant of reachable engine states and
the safety of the `unwrap` calls inside `Cache::subscribe`. -/

section InvThms

variable {F : Nat → Type} {K M : Type} [DecidableEq K]

theorem subscribe_value (e : Entry F) (s : SubId) : (e.subscribe s).value = e.value := by
  unfold Entry.subscribe
  split <;> rfl

theorem mem_subscribe_subs {e : Entry F} {s x : SubId}
    (h : x ∈ (e.subscribe s).subscriptions) : x ∈ e.subscriptions ∨ x = s := by
  unfold Entry.subscribe at h
  split at h
  · exact Or.inl h
  · rcases List.mem_append.1 h with h' | h'
    · exact Or.inl h'
    · simp at h'
      exact Or.inr h'

theorem mem_unsub_subs {e : Entry F} {s x : SubId}
    (h : x ∈ (e.unsubscribe s).subscriptions) : x ∈ e.subscriptions :=
  (List.mem_filter.1 h).1

theorem applyMsgs_typed {subTy : SubId → Nat} {msgs : List (SubId × Value (DynAny F))}
    {h : SubId → Value (DynAny F)}
    (hm : ∀ q ∈ msgs, ValueTyped q.2 (subTy q.1))
    (hh : ∀ s, ValueTyped (h s) (subTy s)) :
    ∀ s, ValueTyped (applyMsgs h msgs s) (subTy s) := by
  induction msgs generalizing h with
  | nil => exact hh
  | cons q rest ih =>
    obtain ⟨s0, v0⟩ := q
    refine ih (fun q hq => hm q (List.mem_cons_of_mem _ hq)) ?_
    intro s
    by_cases hs : s = s0
    · subst hs
      simpa using hm (s, v0) (List.mem_cons_self _ _)
    · simpa [hs] using hh s

theorem downcast_total {v : Value (DynAny F)} {t : Nat} (h : ValueTyped v t) :
    ∃ w, v.downcast t = some w := by
  obtain ⟨vb, vd⟩ := v
  cases vd with
  | none => exact ⟨_, downcast_data_none vb t⟩
  | some d => exact ⟨_, downcast_data_some_pos vb (h d rfl)⟩

theorem ValueTyped_invalidate {v : Value (DynAny F)} {t : Nat}
    (h : ValueTyped v t) : ValueTyped v.invalidate t := h

theorem mem_broadcast {e : Entry F} {q : SubId × Value (DynAny F)}
    (h : q ∈ e.broadcast) : q.1 ∈ e.subscriptions ∧ q.2 = e.value := by
  unfold Entry.broadcast at h
  rcases List.mem_map.1 h with ⟨s, hs, hq⟩
  subst hq
  exact ⟨hs, rfl⟩

variable [∀ i, DecidableEq (F i)]
variable {valTy : K → Nat} {subTy : SubId → Nat} {invB : K → M → Bool}

theorem step_preserves_inv {σ σ' : Sys F K}
    (hstep : Step valTy subTy invB σ σ') (hinv : SysInv valTy subTy σ) :
    SysInv valTy subTy σ' := by
  obtain ⟨hc, hh⟩ := hinv
  cases hstep with
  | subscribe k s r hty hop =>
    cases hg : getEntry σ.cache k with
    | none =>
      simp only [subscribeOp, hg] at hop
      cases hop
      constructor
      · intro p hp
        rcases mem_insertEntry hp with hp' | hp'
        · exact hc p hp'
        · subst hp'
          constructor
          · intro d hd
            cases hd
          · intro s' hs'
            simp [Entry.default] at hs'
            subst hs'
            exact hty.symm
      · exact hh
    | some e =>
      cases hd1 : (e.subscribe s).value.downcast (valTy k) with
      | none =>
        simp only [subscribeOp, hg, hd1] at hop
        cases hop
      | some value =>
        cases hd2 : (σ.handles s).downcast (valTy k) with
        | none =>
          simp only [subscribeOp, hg, hd1, hd2] at hop
          cases hop
        | some current =>
          simp only [subscribeOp, hg, hd1, hd2] at hop
          cases hop
          have hkE := hc (k, e) (getEntry_mem hg)
          constructor
          · intro p hp
            rcases mem_mutateEntry hp with hp' | ⟨e0, he0, hp'⟩
            · exact hc p hp'
            · subst hp'
              have h0 := hc (k, e0) he0
              constructor
              · intro d hd
                rw [subscribe_value] at hd
                exact h0.1 d hd
              · intro s' hs'
                rcases mem_subscribe_subs hs' with h' | h'
                · exact h0.2 s' h'
                · subst h'
                  exact hty.symm
          · apply applyMsgs_typed ?_ hh
            intro q hq
            by_cases hne : value ≠ current
            · simp only [if_pos hne, List.mem_singleton] at hq
              subst hq
              intro d hd
              rw [subscribe_value] at hd
              rw [← hty]
              exact hkE.1 d hd
            · simp only [if_neg hne] at hq
              cases hq
  | success k x hn =>
    constructor
    · intro p hp
      rw [cacheOp, mutateBroadcast_fst] at hp
      rcases mem_mutateEntry hp with hp' | ⟨e0, he0, hp'⟩
      · exact hc p hp'
      · subst hp'
        have h0 := hc (k, e0) he0
        exact ⟨fun d hd => by cases hd; rfl, h0.2⟩
    · apply applyMsgs_typed ?_ hh
      intro q hq
      cases hg : getEntry σ.cache k with
      | none =>
        rw [cacheOp, mutateBroadcast_snd_none k _ hg] at hq
        cases hq
      | some e0 =>
        rw [cacheOp, mutateBroadcast_snd_some k _ hg] at hq
        obtain ⟨hq1, hq2⟩ := mem_broadcast hq
        rw [hq2]
        have h0 := hc (k, e0) (getEntry_mem hg)
        rw [(h0.2 q.1 hq1 : subTy q.1 = valTy k)]
        intro d hd
        cases hd
        rfl
  | failure k hn =>
    constructor
    · intro p hp
      rw [failureOp, mutateBroadcast_fst] at hp
      rcases mem_mutateEntry hp with hp' | ⟨e0, he0, hp'⟩
      · exact hc p hp'
      · subst hp'
        have h0 := hc (k, e0) he0
        exact ⟨h0.1, h0.2⟩
    · apply applyMsgs_typed ?_ hh
      intro q hq
      cases hg : getEntry σ.cache k with
      | none =>
        rw [failureOp, mutateBroadcast_snd_none k _ hg] at hq
        cases hq
      | some e0 =>
        rw [failureOp, mutateBroadcast_snd_some k _ hg] at hq
        obtain ⟨hq1, hq2⟩ := mem_broadcast hq
        rw [hq2]
        have h0 := hc (k, e0) (getEntry_mem hg)
        rw [(h0.2 q.1 hq1 : subTy q.1 = valTy k)]
        exact h0.1
  | invalidate m =>
    constructor
    · intro p hp
      rw [invalidateOp_fst] at hp
      rcases List.mem_map.1 hp with ⟨q, hq, hpq⟩
      have h0 := hc q hq
      by_cases hb : invB q.1 m
      · rw [if_pos hb] at hpq
        subst hpq
        exact ⟨ValueTyped_invalidate h0.1, h0.2⟩
      · rw [if_neg hb] at hpq
        subst hpq
        exact h0
    · apply applyMsgs_typed ?_ hh
      intro q hq
      rw [invalidateOp_snd] at hq
      rcases List.mem_flatMap.1 hq with ⟨p, hp, hq'⟩
      by_cases hb : invB p.1 m
      · rw [if_pos hb] at hq'
        obtain ⟨hq1, hq2⟩ := mem_broadcast hq'
        rw [hq2]
        have h0 := hc p hp
        rw [(h0.2 q.1 hq1 : subTy q.1 = valTy p.1)]
        exact ValueTyped_invalidate h0.1
      · rw [if_neg hb] at hq'
        cases hq'
  | unsub k s =>
    constructor
    · intro p hp
      rw [unsubscribeOp] at hp
      rcases mem_mutateEntry hp with hp' | ⟨e0, he0, hp'⟩
      · exact hc p hp'
      · subst hp'
        have h0 := hc (k, e0) he0
        exact ⟨h0.1, fun s' hs' => h0.2 s' (mem_unsub_subs hs')⟩
    · exact hh

theorem reachable_inv {σ : Sys F K}
    (h : Reachable valTy subTy invB σ) : SysInv valTy subTy σ := by
  induction h with
  | init =>
    constructor
    · intro p hp
      cases hp
    · intro s d hd
      cases hd
  | step hr hs ih => exact step_preserves_inv hs ih

theorem subscribeOp_ne_none_of_inv {σ : Sys F K}
    (hinv : SysInv valTy subTy σ) (k : K) (s : SubId) (hty : valTy k = subTy s) :
    subscribeOp valTy σ.cache k s (σ.handles s) ≠ none := by
  obtain ⟨hc, hh⟩ := hinv
  cases hg : getEntry σ.cache k with
  | none => simp [subscribeOp, hg]
  | some e =>
    have h1 : ValueTyped (e.subscribe s).value (valTy k) := by
      rw [subscribe_value]
      exact (hc (k, e) (getEntry_mem hg)).1
    obtain ⟨w1, hw1⟩ := downcast_total h1
    have h2 : ValueTyped (σ.handles s) (valTy k) := by
      rw [hty]
      exact hh s
    obtain ⟨w2, hw2⟩ := downcast_total h2
    simp [subscribeOp, hg, hw1, hw2]

end InvThms

/-- C10: in every reachable engine state every entry's stored payload has
the runtime type associated with its key (or no payload at all), and
under this invariant `Cache::subscribe` never hits the `none` arm that
models a panic of its two `downcast::<R::Value>().unwrap()` calls. -/
theorem subscribe_downcast_safe {F : Nat → Type} {K M : Type}
    [∀ i, DecidableEq (F i)] [DecidableEq K]
    (valTy : K → Nat) (subTy : SubId → Nat) (invB : K → M → Bool)
    (σ : Sys F K) (h : Reachable valTy subTy invB σ) :
    (∀ p ∈ σ.cache, ValueTyped p.2.value (valTy p.1))
    ∧ (∀ (k : K) (s : SubId), valTy k = subTy s →
        subscribeOp valTy σ.cache k s (σ.handles s) ≠ none) :=
  have hinv := reachable_inv h
  ⟨fun p hp => (hinv.1 p hp).1, fun k s hty => subscribeOp_ne_none_of_inv hinv k s hty⟩

/-- Witness for C10 at the initial state of the concrete instance. -/
theorem subscribe_downcast_safe_witness :
    subscribeOp (F := F0) valTy0 (Sys.init F0 Nat).cache 0 0
      ((Sys.init F0 Nat).handles 0) ≠ none :=
  (subscribe_downcast_safe valTy0 subTy0 inv0 (Sys.init F0 Nat) Reachable.init).2 0 0 rfl

/-! Refutation of the dedup-fetch guarantee. -/

/-- C1 (refutation): the engine reaches a state with two fetches in
flight for the same key. Concretely: subscribe handle `7` to key `0`
(entry created, `progress := true`, fetch spawned), let that fetch fail
(`progress` cleared, value still invalid), then subscribe twice more —
each of those calls sees `needs_fetch` true and spawns a fetch without
setting `progress`, so after the two calls `inflight 0 = 2`. -/
theorem subscribe_double_fetch :
    ∃ σ : Sys F0 Nat,
      Reachable valTy0 subTy0 inv0 σ ∧ σ.inflight 0 = 2 := by
  refine ⟨_, Reachable.step (Reachable.step (Reachable.step (Reachable.step
      Reachable.init (Step.subscribe _ 0 7 _ rfl rfl))
      (Step.failure _ 0 (by decide)))
      (Step.subscribe _ 0 7 _ rfl rfl))
      (Step.subscribe _ 0 7 _ rfl rfl), ?_⟩
  decide

end WasmCache
